import Mathlib
set_option maxRecDepth 4000

/-!
# Verification of the DICOM-to-NIfTI converter (`nii.py`)

A shallow embedding, in Lean 4, of the core logic of the
`DICOMtoNIIConverter` class: scan-type classification, filename
sanitization, series grouping, slice sorting, intensity rescaling,
affine construction, batch accumulation, and the serialization
effect sequence.  Python floats on the values actually exercised
here (timing parameters, spacings, rescale coefficients) are
modelled by `ℚ`; Python `int` by `ℤ`; Python strings by `String`
(the extractor lowercases every text field before the logic
modelled here runs, so strings arrive already lowercased).
-/

namespace Nii

/-- Python's `needle in haystack` prefix test on character lists. -/
def isPrefixB : List Char → List Char → Bool
  | [], _ => true
  | _ :: _, [] => false
  | a :: as, b :: bs => a == b && isPrefixB as bs

/-- Python's `needle in haystack` substring test on character lists. -/
def isInfixB (needle : List Char) : List Char → Bool
  | [] => isPrefixB needle []
  | b :: bs => isPrefixB needle (b :: bs) || isInfixB needle bs

/-- Python's substring containment `needle in haystack` on strings. -/
def strIn (needle haystack : String) : Bool :=
  isInfixB needle.data haystack.data

/-- The per-file metadata record produced by `extract_dicom_metadata`.
Only the fields consumed by the logic under verification are kept;
text fields are lowercased/trimmed by the extractor, numeric timing
fields default to `0`, `ContrastBolusAgent` defaults to `""`. -/
structure Metadata where
  SeriesDescription : String
  ProtocolName : String
  SequenceName : String
  ScanOptions : String
  EchoTime : ℚ
  RepetitionTime : ℚ
  ContrastBolusAgent : String
  SeriesNumber : ℤ
  deriving Repr, DecidableEq

/-- One row of the classifier's keyword/range table. -/
structure ScanTypeInfo where
  name : String
  keywords : List String
  TE_range : ℚ × ℚ
  TR_range : ℚ × ℚ
  deriving Repr, DecidableEq

/-- `self.scan_types_info`: the fixed, ordered classification table. -/
def scan_types_info : List ScanTypeInfo :=
  [ ⟨"T1", ["t1", "t1_", "t1w", "t1-w", "mprage", "bravo", "spgr"], (2, 30), (300, 800)⟩,
    ⟨"T1-CE", ["t1", "t1_", "t1w", "+c", "contrast", "ce", "post"], (2, 30), (300, 800)⟩,
    ⟨"T2", ["t2", "t2_", "t2w", "t2-w", "tse", "haste"], (80, 150), (2000, 6000)⟩,
    ⟨"FLAIR", ["flair", "fluid", "dark fluid"], (80, 150), (8000, 12000)⟩,
    ⟨"DWI", ["dwi", "diffusion"], (50, 100), (3000, 8000)⟩,
    ⟨"ADC", ["adc"], (50, 100), (3000, 8000)⟩ ]

/-- The `has_contrast` flag of `determine_scan_type`: the token tests
run over `series_desc` only, plus the non-empty contrast-agent test. -/
def has_contrast (m : Metadata) : Bool :=
  strIn "+c" m.SeriesDescription ||
  strIn "contrast" m.SeriesDescription ||
  strIn "ce" m.SeriesDescription ||
  strIn "post" m.SeriesDescription ||
  strIn "gd" m.SeriesDescription ||
  m.ContrastBolusAgent != ""

/-- `text_combined = ' '.join(text_fields)`: the concatenation of the
four text fields searched for keywords. -/
def text_combined (m : Metadata) : String :=
  m.SeriesDescription ++ " " ++ m.ProtocolName ++ " " ++
    m.SequenceName ++ " " ++ m.ScanOptions

/-- Whether some keyword of a table row occurs in the text. -/
def kwHit (text : String) (info : ScanTypeInfo) : Bool :=
  info.keywords.any (fun kw => strIn kw text)

/-- The keyword loop of `determine_scan_type`: first row (in table
order) with a keyword occurring in `text` wins. -/
def keywordMatch (text : String) : List ScanTypeInfo → Option String
  | [] => none
  | info :: rest =>
    if kwHit text info then some info.name else keywordMatch text rest

/-- Whether `(te, tr)` lies in a row's inclusive TE/TR ranges. -/
def rangeHit (te tr : ℚ) (info : ScanTypeInfo) : Bool :=
  decide (info.TE_range.1 ≤ te) && decide (te ≤ info.TE_range.2) &&
  decide (info.TR_range.1 ≤ tr) && decide (tr ≤ info.TR_range.2)

/-- The timing-parameter loop of `determine_scan_type`. -/
def rangeMatch (te tr : ℚ) : List ScanTypeInfo → Option String
  | [] => none
  | info :: rest =>
    if rangeHit te tr info then some info.name else rangeMatch te tr rest

/-- The special case inside both loops: a `T1` match with contrast
detected is returned as `T1-CE`. -/
def upgrade (m : Metadata) (st : String) : String :=
  if st == "T1" && has_contrast m then "T1-CE" else st

/-- The trailing multiplanar heuristic of `determine_scan_type`. -/
def mprFallback (text : String) : String :=
  if strIn "mpr" text || strIn "multiplanar" text then
    if strIn "t1" text then "T1-MPR"
    else if strIn "t2" text then "T2-MPR"
    else "MPR"
  else "Unknown"

/-- `determine_scan_type(metadata, dcm_files_sample)`: `None` metadata
gives `Unknown`; otherwise keyword match, then (if TE and TR are both
positive) numeric-range match, then the multiplanar heuristic, then
`Unknown`.  The `dcm_files_sample` argument is unused by the source. -/
def determine_scan_type (metadata : Option Metadata) : String :=
  match metadata with
  | none => "Unknown"
  | some m =>
    match keywordMatch (text_combined m) scan_types_info with
    | some st => upgrade m st
    | none =>
      if decide (0 < m.EchoTime) && decide (0 < m.RepetitionTime) then
        match rangeMatch m.EchoTime m.RepetitionTime scan_types_info with
        | some st => upgrade m st
        | none => mprFallback (text_combined m)
      else mprFallback (text_combined m)

/-- A metadata record with every optional field at its extractor
default, for building concrete test inputs. -/
def mdDefault : Metadata :=
  { SeriesDescription := "", ProtocolName := "", SequenceName := ""
    ScanOptions := "", EchoTime := 0, RepetitionTime := 0
    ContrastBolusAgent := "", SeriesNumber := 0 }

/-- The metadata of the spec's tie-break scenario: series description
`"ax t2 flair"`, `EchoTime 0`, `RepetitionTime 0`. -/
def mdT2Flair : Metadata := { mdDefault with SeriesDescription := "ax t2 flair" }

/-- Contrast detection as the spec words it: the token set is searched
in the concatenation of ALL four lowercase text fields.  Stated only
for comparison against the source's `has_contrast`, which searches
the series description alone. -/
def has_contrast_specVersion (m : Metadata) : Bool :=
  strIn "+c" (text_combined m) ||
  strIn "contrast" (text_combined m) ||
  strIn "ce" (text_combined m) ||
  strIn "post" (text_combined m) ||
  strIn "gd" (text_combined m) ||
  m.ContrastBolusAgent != ""

/-- The fixed vocabulary of classifier outputs. -/
def scanTypeVocab : List String :=
  ["T1", "T1-CE", "T2", "FLAIR", "DWI", "ADC", "T1-MPR", "T2-MPR", "MPR", "Unknown"]

theorem keywordMatch_mem {text st : String} :
    ∀ {table : List ScanTypeInfo}, keywordMatch text table = some st →
      st ∈ table.map ScanTypeInfo.name := by
  intro table
  induction table with
  | nil => intro h; simp [keywordMatch] at h
  | cons info rest ih =>
    intro h
    by_cases hk : kwHit text info
    · simp [keywordMatch, hk] at h
      simp [h]
    · simp [keywordMatch, hk] at h
      simp [ih h]

theorem rangeMatch_mem {te tr : ℚ} {st : String} :
    ∀ {table : List ScanTypeInfo}, rangeMatch te tr table = some st →
      st ∈ table.map ScanTypeInfo.name := by
  intro table
  induction table with
  | nil => intro h; simp [rangeMatch] at h
  | cons info rest ih =>
    intro h
    by_cases hk : rangeHit te tr info
    · simp [rangeMatch, hk] at h
      simp [h]
    · simp [rangeMatch, hk] at h
      simp [ih h]

theorem upgrade_mem {st : String} (m : Metadata)
    (h : st ∈ scan_types_info.map ScanTypeInfo.name) : upgrade m st ∈ scanTypeVocab := by
  have hsub : ∀ x ∈ scan_types_info.map ScanTypeInfo.name, x ∈ scanTypeVocab := by decide
  unfold upgrade
  split
  · decide
  · exact hsub st h

theorem mprFallback_mem (text : String) : mprFallback text ∈ scanTypeVocab := by
  unfold mprFallback
  split
  · split
    · decide
    · split
      · decide
      · decide
  · decide

/-- C1.  The keyword phase scans the table in its fixed order
(T1, T1-CE, T2, FLAIR, DWI, ADC) and the first row with a keyword
occurring as a substring of the concatenated text wins; for the
metadata with series description `"ax t2 flair"` and zero TE/TR the
FLAIR row also has a keyword hit, yet the result is `T2` because the
T2 row precedes the FLAIR row. -/
theorem keyword_first_match_wins :
    scan_types_info.map ScanTypeInfo.name = ["T1", "T1-CE", "T2", "FLAIR", "DWI", "ADC"] ∧
    (∀ (text : String) (pre : List ScanTypeInfo) (info : ScanTypeInfo)
      (post : List ScanTypeInfo),
      pre.all (fun j => !kwHit text j) = true → kwHit text info = true →
      keywordMatch text (pre ++ info :: post) = some info.name) ∧
    kwHit (text_combined mdT2Flair) (scan_types_info.get ⟨3, by decide⟩) = true ∧
    determine_scan_type (some mdT2Flair) = "T2" := by
  refine ⟨by decide, ?_, by decide, by decide⟩
  intro text pre info post hpre hinfo
  induction pre with
  | nil => simp [keywordMatch, hinfo]
  | cons j js ih =>
    simp only [List.all_cons, Bool.and_eq_true, Bool.not_eq_true'] at hpre
    simp only [List.cons_append, keywordMatch, hpre.1, Bool.false_eq_true, if_false]
    exact ih (by simpa using hpre.2)

/-- Witness for C1: the first-match property applied at the scenario's
own text, with `pre` the T1 and T1-CE rows (no keyword hit), `info`
the T2 row and `post` the remaining rows. -/
theorem keyword_first_match_wins_witness :
    ([scan_types_info.get ⟨0, by decide⟩,
      scan_types_info.get ⟨1, by decide⟩].all
        (fun j => !kwHit (text_combined mdT2Flair) j) = true) ∧
    kwHit (text_combined mdT2Flair) (scan_types_info.get ⟨2, by decide⟩) = true ∧
    keywordMatch (text_combined mdT2Flair)
      ([scan_types_info.get ⟨0, by decide⟩, scan_types_info.get ⟨1, by decide⟩] ++
        scan_types_info.get ⟨2, by decide⟩ ::
          [scan_types_info.get ⟨3, by decide⟩, scan_types_info.get ⟨4, by decide⟩,
            scan_types_info.get ⟨5, by decide⟩]) =
      some (scan_types_info.get ⟨2, by decide⟩).name :=
  ⟨by decide, by decide,
    keyword_first_match_wins.2.1 (text_combined mdT2Flair) _ _ _ (by decide) (by decide)⟩

/-- The concrete record refuting C3 as stated: the contrast token
`post` occurs in the protocol name, hence in the concatenated text,
but not in the series description. -/
def mdProtocolPost : Metadata :=
  { mdDefault with SeriesDescription := "t1", ProtocolName := "post" }

/-- Counterexample to C3.  Per the claim, contrast should be detected
(the token `post` occurs in the concatenated text fields) and the T1
keyword match should therefore be upgraded to `T1-CE`; the code
searches the contrast tokens in the series description only, so it
returns plain `T1` here. -/
theorem contrast_scope_counterexample :
    has_contrast_specVersion mdProtocolPost = true ∧
    has_contrast mdProtocolPost = false ∧
    determine_scan_type (some mdProtocolPost) = "T1" ∧
    "T1" ≠ "T1-CE" := by decide

/-- C3 as amended: contrast is detected iff one of the five tokens
occurs in the lowercase series description (not the full
concatenation), or the contrast-agent field is non-empty; and when
contrast is detected, a `T1` outcome of either the keyword phase or
the numeric-range phase is upgraded to `T1-CE`. -/
theorem contrast_detection_amended :
    (∀ m : Metadata, has_contrast m = true ↔
      (strIn "+c" m.SeriesDescription = true ∨ strIn "contrast" m.SeriesDescription = true ∨
       strIn "ce" m.SeriesDescription = true ∨ strIn "post" m.SeriesDescription = true ∨
       strIn "gd" m.SeriesDescription = true ∨ m.ContrastBolusAgent ≠ "")) ∧
    (∀ m : Metadata, has_contrast m = true →
      keywordMatch (text_combined m) scan_types_info = some "T1" →
      determine_scan_type (some m) = "T1-CE") ∧
    (∀ m : Metadata, has_contrast m = true →
      keywordMatch (text_combined m) scan_types_info = none →
      0 < m.EchoTime → 0 < m.RepetitionTime →
      rangeMatch m.EchoTime m.RepetitionTime scan_types_info = some "T1" →
      determine_scan_type (some m) = "T1-CE") := by
  refine ⟨?_, ?_, ?_⟩
  · intro m
    simp [has_contrast, bne_iff_ne, or_assoc]
  · intro m hc hk
    simp [determine_scan_type, hk, upgrade, hc]
  · intro m hc hk hte htr hr
    simp [determine_scan_type, hk, hte, htr, hr, upgrade, hc]

/-- A record matching T1 by keyword, with a contrast token in the
series description. -/
def mdT1Post : Metadata := { mdDefault with SeriesDescription := "t1 post" }

/-- A record matching T1 by TE/TR range only, with a non-empty
contrast-agent field. -/
def mdGd : Metadata :=
  { mdDefault with EchoTime := 10, RepetitionTime := 500, ContrastBolusAgent := "gadolinium" }

/-- Witness for C3's amended theorem: a keyword-phase upgrade at
series description `"t1 post"`, and a range-phase upgrade at a record
with a non-empty contrast agent, TE 10 and TR 500. -/
theorem contrast_detection_amended_witness :
    (has_contrast mdT1Post = true ∧
      keywordMatch (text_combined mdT1Post) scan_types_info = some "T1" ∧
      determine_scan_type (some mdT1Post) = "T1-CE") ∧
    (has_contrast mdGd = true ∧
      determine_scan_type (some mdGd) = "T1-CE") :=
  ⟨⟨by decide, by decide,
    contrast_detection_amended.2.1 _ (by decide) (by decide)⟩,
   ⟨by decide,
    contrast_detection_amended.2.2 _ (by decide) (by decide) (by decide) (by decide)
      (by decide)⟩⟩

/-- C9.  Classification is total: absent metadata yields `Unknown`,
every result lies in the fixed ten-label vocabulary, and when the
keyword, numeric-range and multiplanar heuristics all fall through
the result is `Unknown`. -/
theorem classifier_total_vocabulary :
    determine_scan_type none = "Unknown" ∧
    (∀ m : Option Metadata, determine_scan_type m ∈ scanTypeVocab) ∧
    (∀ m : Metadata,
      keywordMatch (text_combined m) scan_types_info = none →
      rangeMatch m.EchoTime m.RepetitionTime scan_types_info = none →
      strIn "mpr" (text_combined m) = false →
      strIn "multiplanar" (text_combined m) = false →
      determine_scan_type (some m) = "Unknown") := by
  refine ⟨by decide, ?_, ?_⟩
  · intro m
    match m with
    | none => decide
    | some md =>
      cases hk : keywordMatch (text_combined md) scan_types_info with
      | some st =>
        have he : determine_scan_type (some md) = upgrade md st := by
          simp [determine_scan_type, hk]
        rw [he]; exact upgrade_mem md (keywordMatch_mem hk)
      | none =>
        by_cases hp : (decide (0 < md.EchoTime) && decide (0 < md.RepetitionTime)) = true
        · cases hr : rangeMatch md.EchoTime md.RepetitionTime scan_types_info with
          | some st =>
            have he : determine_scan_type (some md) = upgrade md st := by
              simp [determine_scan_type, hk, hp, hr]
            rw [he]; exact upgrade_mem md (rangeMatch_mem hr)
          | none =>
            have he : determine_scan_type (some md) = mprFallback (text_combined md) := by
              simp [determine_scan_type, hk, hp, hr]
            rw [he]; exact mprFallback_mem _
        · have he : determine_scan_type (some md) = mprFallback (text_combined md) := by
            simp [determine_scan_type, hk, hp]
          rw [he]; exact mprFallback_mem _
  · intro m hk hr hmpr hmulti
    by_cases hp : (decide (0 < m.EchoTime) && decide (0 < m.RepetitionTime)) = true
    · simp [determine_scan_type, hk, hp, hr, mprFallback, hmpr, hmulti]
    · simp [determine_scan_type, hk, hp, mprFallback, hmpr, hmulti]

/-- Witness for C9: the default (all-empty) record falls through every
heuristic and classifies as `Unknown`. -/
theorem classifier_total_vocabulary_witness :
    keywordMatch (text_combined mdDefault) scan_types_info = none ∧
    rangeMatch mdDefault.EchoTime mdDefault.RepetitionTime scan_types_info = none ∧
    strIn "mpr" (text_combined mdDefault) = false ∧
    strIn "multiplanar" (text_combined mdDefault) = false ∧
    determine_scan_type (some mdDefault) = "Unknown" :=
  ⟨by decide, by decide, by decide, by decide,
    classifier_total_vocabulary.2.2 mdDefault (by decide) (by decide) (by decide) (by decide)⟩

/-- The fields of a fully parsed `pydicom` dataset that
`sort_dicom_slices` and `convert_series_to_nifti` consume.  Absent
DICOM attributes are `none`; `ImagePositionPatient` is the standard
3-vector. -/
structure Dataset where
  Modality : Option String
  RescaleSlope : Option ℚ
  RescaleIntercept : Option ℚ
  SliceLocation : Option ℚ
  ImagePositionPatient : Option (ℚ × ℚ × ℚ)
  InstanceNumber : Option ℤ
  PixelSpacing : Option (List ℚ)
  SliceThickness : Option ℚ
  pixel_array : List ℚ
  deriving DecidableEq

/-- A dataset with every attribute absent and no pixels. -/
def dsDefault : Dataset := ⟨none, none, none, none, none, none, none, none, []⟩

/-- `ds.get('InstanceNumber', 0)`. -/
def instanceNum (ds : Dataset) : ℤ := ds.InstanceNumber.getD 0

/-- The scalar slice position of `sort_dicom_slices`: the explicit
slice location when present, else the third component of the image
position vector, else the instance number. -/
def slicePos (ds : Dataset) : ℚ :=
  match ds.SliceLocation with
  | some x => x
  | none =>
    match ds.ImagePositionPatient with
    | some v => v.2.2
    | none => (instanceNum ds : ℚ)

/-- The `(slice_pos, instance_num, ds)` triple appended to
`slices_info` for each readable file. -/
def sliceEntry (ds : Dataset) : ℚ × ℤ × Dataset := (slicePos ds, instanceNum ds, ds)

/-- The sort key ordering of `slices_info.sort(key=lambda x: (float(x[0]), x[1]))`:
lexicographic on (position, instance number). -/
def sliceLE (a b : ℚ × ℤ × Dataset) : Prop :=
  a.1 < b.1 ∨ (a.1 = b.1 ∧ a.2.1 ≤ b.2.1)

instance : DecidableRel sliceLE := fun a b => by
  unfold sliceLE
  infer_instance

instance : IsTotal (ℚ × ℤ × Dataset) sliceLE where
  total := by
    intro a b
    rcases lt_trichotomy a.1 b.1 with h | h | h
    · exact Or.inl (Or.inl h)
    · rcases le_total a.2.1 b.2.1 with h2 | h2
      · exact Or.inl (Or.inr ⟨h, h2⟩)
      · exact Or.inr (Or.inr ⟨h.symm, h2⟩)
    · exact Or.inr (Or.inl h)

instance : IsTrans (ℚ × ℤ × Dataset) sliceLE where
  trans := by
    intro a b c hab hbc
    rcases hab with h1 | ⟨e1, l1⟩
    · rcases hbc with h2 | ⟨e2, l2⟩
      · exact Or.inl (h1.trans h2)
      · exact Or.inl (lt_of_lt_of_eq h1 e2)
    · rcases hbc with h2 | ⟨e2, l2⟩
      · exact Or.inl (lt_of_eq_of_lt e1 h2)
      · exact Or.inr ⟨e1.trans e2, l1.trans l2⟩

/-- `sort_dicom_slices(filepaths)`: each readable file (modelled as
`some ds`; an unreadable file is `none` and is skipped) contributes
its `(position, instance, dataset)` triple, and the triples are
sorted by `(float(position), instance)`. -/
def sort_dicom_slices (files : List (Option Dataset)) : List (ℚ × ℤ × Dataset) :=
  List.insertionSort sliceLE (files.filterMap (fun o => o.map sliceEntry))

/-- C5.  The sequencer returns a permutation of the readable slices'
triples, sorted non-decreasingly by the lexicographic pair (position,
instance number); each triple carries the slice's position and
instance number, and the position follows the preference order
slice-location, then image-position third component, then instance
number. -/
theorem sort_slices_sorted_perm (files : List (Option Dataset)) :
    List.Sorted sliceLE (sort_dicom_slices files) ∧
    List.Perm (sort_dicom_slices files) (files.filterMap (fun o => o.map sliceEntry)) ∧
    (∀ e ∈ sort_dicom_slices files, e.1 = slicePos e.2.2 ∧ e.2.1 = instanceNum e.2.2) ∧
    (∀ (ds : Dataset) (x : ℚ), ds.SliceLocation = some x → slicePos ds = x) ∧
    (∀ (ds : Dataset) (v : ℚ × ℚ × ℚ), ds.SliceLocation = none →
      ds.ImagePositionPatient = some v → slicePos ds = v.2.2) ∧
    (∀ ds : Dataset, ds.SliceLocation = none → ds.ImagePositionPatient = none →
      slicePos ds = (instanceNum ds : ℚ)) := by
  refine ⟨List.sorted_insertionSort sliceLE _, List.perm_insertionSort sliceLE _, ?_, ?_, ?_, ?_⟩
  · intro e he
    have hm : e ∈ files.filterMap (fun o => o.map sliceEntry) :=
      (List.perm_insertionSort sliceLE _).mem_iff.mp he
    rcases List.mem_filterMap.mp hm with ⟨o, _, ho⟩
    rcases Option.map_eq_some'.mp ho with ⟨ds, _, hds⟩
    rw [← hds]
    exact ⟨rfl, rfl⟩
  · intro ds x h
    simp [slicePos, h]
  · intro ds v h1 h2
    simp [slicePos, h1, h2]
  · intro ds h1 h2
    simp [slicePos, h1, h2]

/-- A slice with an explicit slice location. -/
def dsLoc : Dataset := { dsDefault with SliceLocation := some 5, InstanceNumber := some 2 }

/-- A slice positioned by its image-position third component. -/
def dsIPP : Dataset := { dsDefault with ImagePositionPatient := some (1, 2, 3) }

/-- A slice positioned by instance-number fallback. -/
def dsInst : Dataset := { dsDefault with InstanceNumber := some 7 }

/-- Witness for C5 at a three-file input exercising each position
source, including an unreadable (`none`) file. -/
theorem sort_slices_sorted_perm_witness :
    slicePos dsLoc = 5 ∧ slicePos dsIPP = 3 ∧
    slicePos dsInst = (instanceNum dsInst : ℚ) ∧
    sliceEntry dsIPP ∈ sort_dicom_slices [some dsLoc, none, some dsIPP, some dsInst] ∧
    (sliceEntry dsIPP).1 = slicePos dsIPP :=
  ⟨(sort_slices_sorted_perm []).2.2.2.1 dsLoc 5 rfl,
   (sort_slices_sorted_perm []).2.2.2.2.1 dsIPP (1, 2, 3) rfl rfl,
   (sort_slices_sorted_perm []).2.2.2.2.2 dsInst rfl rfl,
   by decide,
   ((sort_slices_sorted_perm [some dsLoc, none, some dsIPP, some dsInst]).2.2.1
      (sliceEntry dsIPP) (by decide)).1⟩

/-- The per-slice Hounsfield calibration of `convert_series_to_nifti`:
the pixel values are rescaled exactly when the modality is `CT` and
both rescale attributes are present. -/
def applyRescale (ds : Dataset) : List ℚ :=
  if ds.Modality == some "CT" then
    match ds.RescaleSlope, ds.RescaleIntercept with
    | some slope, some intercept => ds.pixel_array.map (fun v => v * slope + intercept)
    | _, _ => ds.pixel_array
  else ds.pixel_array

/-- The spec's calibration scenario: a CT slice with slope 1,
intercept -1024 and single pixel value 1024. -/
def ctSlice1024 : Dataset :=
  { dsDefault with
    Modality := some "CT"
    RescaleSlope := some 1
    RescaleIntercept := some (-1024)
    pixel_array := [1024] }

/-- C6.  Pixel values are replaced by `value * slope + intercept`
exactly when the slice's modality is `CT` and both rescale attributes
are present, and otherwise stacked unchanged; the spec's concrete CT
scenario calibrates 1024 to 0. -/
theorem rescale_ct_iff :
    (∀ (ds : Dataset) (s i : ℚ), ds.Modality = some "CT" → ds.RescaleSlope = some s →
      ds.RescaleIntercept = some i →
      applyRescale ds = ds.pixel_array.map (fun v => v * s + i)) ∧
    (∀ ds : Dataset, ds.Modality ≠ some "CT" → applyRescale ds = ds.pixel_array) ∧
    (∀ ds : Dataset, ds.RescaleSlope = none → applyRescale ds = ds.pixel_array) ∧
    (∀ ds : Dataset, ds.RescaleIntercept = none → applyRescale ds = ds.pixel_array) ∧
    applyRescale ctSlice1024 = [0] := by
  refine ⟨?_, ?_, ?_, ?_, by norm_num [applyRescale, ctSlice1024]⟩
  · intro ds s i hm hs hi
    simp [applyRescale, hm, hs, hi]
  · intro ds hm
    have hb : (ds.Modality == some "CT") = false := beq_eq_false_iff_ne.mpr hm
    simp [applyRescale, hb]
  · intro ds hs
    by_cases hm : (ds.Modality == some "CT") = true
    · simp [applyRescale, hm, hs]
    · simp [applyRescale, hm]
  · intro ds hi
    by_cases hm : (ds.Modality == some "CT") = true
    · cases hs : ds.RescaleSlope with
      | none => simp [applyRescale, hm, hs]
      | some s => simp [applyRescale, hm, hs, hi]
    · simp [applyRescale, hm]

/-- Witness for C6: the spec's CT slice satisfies the rescale
hypotheses and calibrates via `1024 * 1 + (-1024)`. -/
theorem rescale_ct_iff_witness :
    ctSlice1024.Modality = some "CT" ∧ ctSlice1024.RescaleSlope = some 1 ∧
    ctSlice1024.RescaleIntercept = some (-1024) ∧
    applyRescale ctSlice1024 = ctSlice1024.pixel_array.map (fun v => v * 1 + (-1024)) :=
  ⟨rfl, rfl, rfl, rescale_ct_iff.1 ctSlice1024 1 (-1024) rfl rfl rfl⟩

/-- The diagonal written onto the affine by
`convert_series_to_nifti`: `pixel_spacing` defaults to `[1, 1]` and
`slice_thickness` to `1.0` when absent, and the two spacing entries
are read only when the list is long enough.  A present but
non-positive value is used as-is. -/
def affineDiag (ds : Dataset) : ℚ × ℚ × ℚ :=
  (if 0 < (ds.PixelSpacing.getD [1, 1]).length then (ds.PixelSpacing.getD [1, 1]).getD 0 1 else 1,
   if 1 < (ds.PixelSpacing.getD [1, 1]).length then (ds.PixelSpacing.getD [1, 1]).getD 1 1 else 1,
   ds.SliceThickness.getD 1)

/-- `np.eye(4)` over ℚ. -/
def eye4 : Fin 4 → Fin 4 → ℚ := fun i j => if i = j then 1 else 0

/-- One in-place entry assignment `A[r, c] = v`. -/
def matSet (A : Fin 4 → Fin 4 → ℚ) (r c : Fin 4) (v : ℚ) : Fin 4 → Fin 4 → ℚ :=
  fun i j => if i = r ∧ j = c then v else A i j

/-- The affine of `convert_series_to_nifti`: identity with the three
diagonal assignments from the first ordered slice. -/
def affine (ds : Dataset) : Fin 4 → Fin 4 → ℚ :=
  matSet (matSet (matSet eye4 0 0 (affineDiag ds).1) 1 1 (affineDiag ds).2.1)
    2 2 (affineDiag ds).2.2

/-- A dataset whose spacing and thickness attributes are present but
non-positive. -/
def dsNonPos : Dataset :=
  { dsDefault with PixelSpacing := some [-1, 2], SliceThickness := some 0 }

/-- Counterexample to C4.  The claim says each of the three diagonal
values defaults to 1.0 when non-positive; the code only defaults
absent attributes, so a present spacing of -1 and thickness of 0 land
on the diagonal unchanged. -/
theorem affine_nonpositive_counterexample :
    dsNonPos.PixelSpacing = some [-1, 2] ∧ dsNonPos.SliceThickness = some 0 ∧
    ((-1 : ℚ) ≤ 0 ∧ (0 : ℚ) ≤ 0) ∧
    affine dsNonPos 0 0 = -1 ∧ affine dsNonPos 2 2 = 0 ∧
    (-1 : ℚ) ≠ 1 ∧ (0 : ℚ) ≠ 1 := by decide

/-- C4 as amended: the affine is the 4×4 identity except that the
(0,0), (1,1), (2,2) entries are pixel-spacing[0], pixel-spacing[1]
and slice-thickness of the first ordered slice, where each value
defaults to 1.0 only when the attribute is absent (or the spacing
list too short); present non-positive values are used unchanged. -/
theorem affine_diag_amended :
    (∀ ds : Dataset, affine ds 0 0 = (affineDiag ds).1 ∧
      affine ds 1 1 = (affineDiag ds).2.1 ∧
      affine ds 2 2 = (affineDiag ds).2.2 ∧ affine ds 3 3 = 1 ∧
      ∀ i j : Fin 4, i ≠ j → affine ds i j = 0) ∧
    (∀ ds : Dataset, ds.PixelSpacing = none →
      (affineDiag ds).1 = 1 ∧ (affineDiag ds).2.1 = 1) ∧
    (∀ ds : Dataset, ds.PixelSpacing = some [] →
      (affineDiag ds).1 = 1 ∧ (affineDiag ds).2.1 = 1) ∧
    (∀ (ds : Dataset) (x : ℚ) (l : List ℚ), ds.PixelSpacing = some (x :: l) →
      (affineDiag ds).1 = x) ∧
    (∀ (ds : Dataset) (x : ℚ), ds.PixelSpacing = some [x] → (affineDiag ds).2.1 = 1) ∧
    (∀ (ds : Dataset) (x y : ℚ) (l : List ℚ), ds.PixelSpacing = some (x :: y :: l) →
      (affineDiag ds).2.1 = y) ∧
    (∀ ds : Dataset, ds.SliceThickness = none → (affineDiag ds).2.2 = 1) ∧
    (∀ (ds : Dataset) (t : ℚ), ds.SliceThickness = some t → (affineDiag ds).2.2 = t) := by
  refine ⟨?_, ?_, ?_, ?_, ?_, ?_, ?_, ?_⟩
  · intro ds
    refine ⟨by simp [affine, matSet, eye4], by simp [affine, matSet, eye4],
      by simp [affine, matSet, eye4], by simp [affine, matSet, eye4], ?_⟩
    intro i j hij
    fin_cases i <;> fin_cases j <;> simp_all [affine, matSet, eye4]
  · intro ds h
    simp [affineDiag, h]
  · intro ds h
    simp [affineDiag, h]
  · intro ds x l h
    simp [affineDiag, h]
  · intro ds x h
    simp [affineDiag, h]
  · intro ds x y l h
    simp [affineDiag, h]
  · intro ds h
    simp [affineDiag, h]
  · intro ds t h
    simp [affineDiag, h]

/-- A dataset with ordinary positive geometry attributes. -/
def dsGeom : Dataset :=
  { dsDefault with PixelSpacing := some [2, 3], SliceThickness := some 4 }

/-- Witness for C4's amended theorem: the diagonal of the affine for
present spacing `[2, 3]` and thickness `4`, an off-diagonal zero, and
the defaults at a dataset with both attributes absent. -/
theorem affine_diag_amended_witness :
    affine dsGeom 0 0 = (affineDiag dsGeom).1 ∧
    (affineDiag dsGeom).1 = 2 ∧ (affineDiag dsGeom).2.1 = 3 ∧ (affineDiag dsGeom).2.2 = 4 ∧
    affine dsGeom 0 1 = 0 ∧
    (affineDiag dsDefault).1 = 1 ∧ (affineDiag dsDefault).2.2 = 1 :=
  ⟨(affine_diag_amended.1 dsGeom).1,
   affine_diag_amended.2.2.2.1 dsGeom 2 [3] rfl,
   affine_diag_amended.2.2.2.2.2.1 dsGeom 2 3 [] rfl,
   affine_diag_amended.2.2.2.2.2.2.2 dsGeom 4 rfl,
   (affine_diag_amended.1 dsGeom).2.2.2.2 0 1 (by decide),
   (affine_diag_amended.2.1 dsDefault rfl).1,
   affine_diag_amended.2.2.2.2.2.2.1 dsDefault rfl⟩

/-- Observable condition of one output path on disk. -/
inductive FileCond
  | absent
  | halfWritten
  | complete
  deriving DecidableEq

/-- The two on-disk artifacts of one series conversion: the
uncompressed intermediate (`filepath` with `.gz` stripped) and the
final compressed `filepath`. -/
structure Disk where
  uncompressed : FileCond
  compressed : FileCond
  deriving DecidableEq

/-- The serialization effects of `convert_series_to_nifti`, in
program order: `nib.save` to the uncompressed path, the
`gzip.open`/`copyfileobj` block filling the final `.gz` path, and
`os.remove` of the intermediate. -/
inductive SerStep
  | writeUncompressed
  | compressToFinal
  | removeUncompressed
  deriving DecidableEq

/-- The three serialization statements in program order. -/
def serializeSteps : List SerStep :=
  [.writeUncompressed, .compressToFinal, .removeUncompressed]

/-- Effect on the disk of a step that runs to completion. -/
def stepDone (d : Disk) : SerStep → Disk
  | .writeUncompressed => { d with uncompressed := .complete }
  | .compressToFinal => { d with compressed := .complete }
  | .removeUncompressed => { d with uncompressed := .absent }

/-- Effect on the disk of a step that raises midway: a failing write
leaves a half-written file at its target path; a failing remove
leaves the file as it was. -/
def stepRaised (d : Disk) : SerStep → Disk
  | .writeUncompressed => { d with uncompressed := .halfWritten }
  | .compressToFinal => { d with compressed := .halfWritten }
  | .removeUncompressed => d

/-- Run the remaining steps, numbering them from `k`; a step whose
index equals `failAt` raises, whereupon the enclosing `except` branch
of `convert_series_to_nifti` prints the error and returns `None`
without performing any cleanup. -/
def serializeGo (failAt : Option ℕ) : Disk → List SerStep → ℕ → Disk × Bool
  | d, [], _ => (d, true)
  | d, s :: rest, k =>
    if failAt = some k then (stepRaised d s, false)
    else serializeGo failAt (stepDone d s) rest (k + 1)

/-- The serialization of one series starting from an empty disk;
`failAt = none` is the failure-free run, `failAt = some k` makes the
k-th step (0-based) raise.  The Bool tells whether the series is
reported as successfully converted. -/
def runSerialize (failAt : Option ℕ) : Disk × Bool :=
  serializeGo failAt ⟨.absent, .absent⟩ serializeSteps 0

/-- C2 evaluated at its failing input.  The failure-free run does
write the uncompressed file, compress, and remove the intermediate
(final state: intermediate absent, compressed complete).  But when
the compression step fails midway, the `except` branch performs no
cleanup, so a half-written final compressed file remains on disk
(together with the stale intermediate), contradicting the claim that
the final artifact either exists complete or not at all. -/
theorem serialize_compress_failure_leaves_half_written :
    runSerialize none = (⟨.absent, .complete⟩, true) ∧
    runSerialize (some 1) = (⟨.complete, .halfWritten⟩, false) ∧
    FileCond.halfWritten ≠ FileCond.absent ∧
    FileCond.halfWritten ≠ FileCond.complete := by decide

/-- The fields of the per-series result dict returned by
`convert_series_to_nifti` that the report logic consumes. -/
structure ConversionResult where
  filename : String
  scan_type : String
  series_number : ℤ
  original_files : ℕ
  deriving DecidableEq

/-- `summary[scan_type] = 0` on first sight, then
`summary[scan_type] += 1`, on an insertion-ordered association list
(a Python dict). -/
def bump (summary : List (String × ℕ)) (t : String) : List (String × ℕ) :=
  if summary.any (fun e => e.1 == t) then
    summary.map (fun e => if e.1 == t then (e.1, e.2 + 1) else e)
  else summary ++ [(t, 1)]

/-- One iteration of the conversion loop of `process_all_series`: a
successful conversion appends its result and bumps the per-type
counter; a failed one (`None`) changes neither. -/
def processStep (st : List ConversionResult × List (String × ℕ))
    (outcome : Option ConversionResult) : List ConversionResult × List (String × ℕ) :=
  match outcome with
  | none => st
  | some r => (st.1 ++ [r], bump st.2 r.scan_type)

/-- The accumulation loop of `process_all_series`, driven by the
per-series conversion outcomes. -/
def process_all_series (outcomes : List (Option ConversionResult)) :
    List ConversionResult × List (String × ℕ) :=
  outcomes.foldl processStep ([], [])

/-- The report dict assembled by `save_report` (sans timestamp). -/
structure Report where
  total_series : ℕ
  summary_by_type : List (String × ℕ)
  details : List ConversionResult
  deriving DecidableEq

/-- `save_report`: `total_series` is `len(results)` and `details` is
the results list itself. -/
def save_report (results : List ConversionResult) (summary : List (String × ℕ)) : Report :=
  { total_series := results.length, summary_by_type := summary, details := results }

/-- Well-formedness of the accumulating state: distinct summary keys,
positive counts, and counts summing to the number of results. -/
def SummaryWF (results : List ConversionResult) (summary : List (String × ℕ)) : Prop :=
  (summary.map Prod.fst).Nodup ∧ (∀ e ∈ summary, 0 < e.2) ∧
    (summary.map Prod.snd).sum = results.length

theorem map_id_of_mem {α : Type} (f : α → α) :
    ∀ l : List α, (∀ x ∈ l, f x = x) → l.map f = l := by
  intro l
  induction l with
  | nil => intro _; rfl
  | cons a as ih =>
    intro h
    simp only [List.map_cons, h a (by simp)]
    rw [ih (fun x hx => h x (by simp [hx]))]

theorem bump_keys_nodup {summary : List (String × ℕ)} {t : String}
    (h : (summary.map Prod.fst).Nodup) : ((bump summary t).map Prod.fst).Nodup := by
  unfold bump
  split
  · have : (summary.map (fun e => if e.1 == t then (e.1, e.2 + 1) else e)).map Prod.fst
        = summary.map Prod.fst := by
      rw [List.map_map]
      apply List.map_congr_left
      intro e _
      simp only [Function.comp]
      split <;> rfl
    rw [this]
    exact h
  · rename_i hany
    have ht : t ∉ summary.map Prod.fst := by
      intro hmem
      rcases List.mem_map.mp hmem with ⟨e, he, hfst⟩
      have : summary.any (fun e => e.1 == t) = true :=
        List.any_eq_true.mpr ⟨e, he, by simp [hfst]⟩
      exact hany this
    simp only [List.map_append, List.map_cons, List.map_nil]
    exact List.Nodup.append h (List.nodup_singleton t) (by
      intro a ha hb
      simp only [List.mem_singleton] at hb
      exact ht (hb ▸ ha))

theorem bump_pos {summary : List (String × ℕ)} {t : String}
    (h : ∀ e ∈ summary, 0 < e.2) : ∀ e ∈ bump summary t, 0 < e.2 := by
  unfold bump
  split
  · intro e he
    rcases List.mem_map.mp he with ⟨e0, he0, hfe⟩
    by_cases h0 : e0.1 == t
    · simp only [h0, if_true] at hfe
      rw [← hfe]
      simp
    · simp only [h0] at hfe
      simp only [Bool.false_eq_true, if_false] at hfe
      exact hfe ▸ h e0 he0
  · intro e he
    rcases List.mem_append.mp he with h1 | h1
    · exact h e h1
    · simp only [List.mem_singleton] at h1
      simp [h1]

theorem bumpMap_sum {t : String} :
    ∀ summary : List (String × ℕ), (summary.map Prod.fst).Nodup →
      summary.any (fun e => e.1 == t) = true →
      ((summary.map (fun e => if e.1 == t then (e.1, e.2 + 1) else e)).map Prod.snd).sum
        = (summary.map Prod.snd).sum + 1 := by
  intro summary
  induction summary with
  | nil => intro _ hany; simp at hany
  | cons e es ih =>
    intro hnd hany
    simp only [List.map_cons, List.nodup_cons] at hnd ⊢
    by_cases he : e.1 == t
    · have ht : e.1 = t := by simpa using he
      have hes : es.map (fun x => if x.1 == t then (x.1, x.2 + 1) else x) = es := by
        apply map_id_of_mem
        intro x hx
        have hx1 : x.1 ≠ t := by
          intro hxe
          apply hnd.1
          have hmem : x.1 ∈ es.map Prod.fst := List.mem_map_of_mem Prod.fst hx
          rwa [hxe, ← ht] at hmem
        simp [hx1]
      simp only [he, if_true, hes, List.map_cons, List.sum_cons]
      omega
    · have hany' : es.any (fun x => x.1 == t) = true := by
        rcases List.any_eq_true.mp hany with ⟨x, hx, hxt⟩
        rcases List.mem_cons.mp hx with hx1 | hx1
        · exact absurd (hx1 ▸ hxt) (by simpa using he)
        · exact List.any_eq_true.mpr ⟨x, hx1, hxt⟩
      simp only [he, Bool.false_eq_true, if_false, List.map_cons, List.sum_cons]
      rw [ih hnd.2 hany']
      omega

theorem bump_sum {summary : List (String × ℕ)} {t : String}
    (hnd : (summary.map Prod.fst).Nodup) :
    ((bump summary t).map Prod.snd).sum = (summary.map Prod.snd).sum + 1 := by
  unfold bump
  split
  · rename_i hany
    exact bumpMap_sum summary hnd hany
  · simp

theorem processStep_wf {res : List ConversionResult} {summary : List (String × ℕ)}
    (h : SummaryWF res summary) (o : Option ConversionResult) :
    SummaryWF (processStep (res, summary) o).1 (processStep (res, summary) o).2 := by
  match o with
  | none => exact h
  | some r =>
    refine ⟨bump_keys_nodup h.1, bump_pos h.2.1, ?_⟩
    simp only [processStep]
    rw [bump_sum h.1, h.2.2]
    simp

theorem foldl_processStep_wf :
    ∀ (outcomes : List (Option ConversionResult))
      (st : List ConversionResult × List (String × ℕ)), SummaryWF st.1 st.2 →
      SummaryWF (outcomes.foldl processStep st).1 (outcomes.foldl processStep st).2 := by
  intro outcomes
  induction outcomes with
  | nil => intro st h; exact h
  | cons o os ih =>
    intro st h
    exact ih _ (by rcases st with ⟨res, summary⟩; exact processStep_wf h o)

theorem foldl_processStep_results :
    ∀ (outcomes : List (Option ConversionResult))
      (st : List ConversionResult × List (String × ℕ)),
      (outcomes.foldl processStep st).1 = st.1 ++ outcomes.reduceOption := by
  intro outcomes
  induction outcomes with
  | nil => intro st; simp [List.reduceOption]
  | cons o os ih =>
    intro st
    match o with
    | none =>
      simp only [List.foldl_cons, processStep, List.reduceOption_cons_of_none]
      exact ih st
    | some r =>
      simp only [List.foldl_cons, processStep, List.reduceOption_cons_of_some]
      rw [ih]
      simp

/-- C10.  In every report: `total_series` equals the length of the
details list; every per-type summary count is positive and the counts
sum to `total_series`; the results are exactly the successful
outcomes in order; and a failed series changes neither the results
nor the summary. -/
theorem report_invariants (outcomes : List (Option ConversionResult)) :
    (save_report (process_all_series outcomes).1 (process_all_series outcomes).2).total_series
      = (save_report (process_all_series outcomes).1
          (process_all_series outcomes).2).details.length ∧
    (∀ e ∈ (process_all_series outcomes).2, 0 < e.2) ∧
    ((process_all_series outcomes).2.map Prod.snd).sum
      = (process_all_series outcomes).1.length ∧
    (∀ st : List ConversionResult × List (String × ℕ), processStep st none = st) ∧
    (process_all_series outcomes).1 = outcomes.reduceOption := by
  have hwf : SummaryWF (process_all_series outcomes).1 (process_all_series outcomes).2 :=
    foldl_processStep_wf outcomes ([], []) ⟨List.nodup_nil, by simp, by simp⟩
  refine ⟨rfl, hwf.2.1, hwf.2.2, ?_, ?_⟩
  · intro st; rfl
  · have := foldl_processStep_results outcomes ([], [])
    simpa [process_all_series] using this

/-- A successful conversion result for exercising the report logic. -/
def crDemo : ConversionResult := ⟨"p_T2_S1_d.nii.gz", "T2", 1, 3⟩

/-- Witness for C10: two successes and one failure give a summary
entry ("T2", 2) with positive count, and results equal to the
successful outcomes. -/
theorem report_invariants_witness :
    ("T2", 2) ∈ (process_all_series [some crDemo, none, some crDemo]).2 ∧
    0 < (2 : ℕ) ∧
    (process_all_series [some crDemo, none, some crDemo]).1
      = ([some crDemo, none, some crDemo] : List (Option ConversionResult)).reduceOption :=
  ⟨by decide,
   (report_invariants [some crDemo, none, some crDemo]).2.1 ("T2", 2) (by decide),
   (report_invariants [some crDemo, none, some crDemo]).2.2.2.2⟩

/-- Python's `f"{n:04d}"`: decimal rendering zero-padded to total
width 4, the sign counting toward the width. -/
def zeroPad4 (n : ℤ) : String :=
  if n < 0 then
    "-" ++ String.mk (List.replicate (3 - (toString n.natAbs).length) '0') ++ toString n.natAbs
  else
    String.mk (List.replicate (4 - (toString n.natAbs).length) '0') ++ toString n.natAbs

/-- The grouping key of `find_dicom_series`:
`f"{series_num:04d}_{series_description[:50]}"`. -/
def seriesKey (m : Metadata) : String :=
  zeroPad4 m.SeriesNumber ++ "_" ++ m.SeriesDescription.take 50

/-- One entry of the `dicom_series` dict: member file paths, the
representative metadata of the first file encountered, and that
file's path. -/
structure SeriesGroup where
  key : String
  files : List String
  metadata : Metadata
  sample_file : String
  deriving DecidableEq

/-- One loop iteration of `find_dicom_series` for a file whose
metadata extraction succeeded: create the group on first encounter of
its key, then append the file to the group. -/
def addFile (groups : List SeriesGroup) (p : String) (m : Metadata) : List SeriesGroup :=
  if groups.any (fun g => g.key == seriesKey m) then
    groups.map (fun g => if g.key == seriesKey m then { g with files := g.files ++ [p] } else g)
  else
    groups ++ [{ key := seriesKey m, files := [p], metadata := m, sample_file := p }]

/-- The grouping loop over the (path, extraction result) sequence; a
file whose extraction failed (`none`) is skipped. -/
def buildGroups (groups : List SeriesGroup) :
    List (String × Option Metadata) → List SeriesGroup
  | [] => groups
  | (p, om) :: rest =>
    match om with
    | none => buildGroups groups rest
    | some m => buildGroups (addFile groups p m) rest

/-- `find_dicom_series`: metadata extraction and grouping run over
`dcm_files[:min(500, len(dcm_files))]` only.  Discovery and
extraction are modelled as the input association of each discovered
path with its extraction result. -/
def find_dicom_series (dcm_files : List (String × Option Metadata)) : List SeriesGroup :=
  buildGroups [] (dcm_files.take (min 500 dcm_files.length))

/-- The successfully extracted (path, metadata) pairs of a file
sequence. -/
def extractEntry (pr : String × Option Metadata) : Option (String × Metadata) :=
  pr.2.map (fun m => (pr.1, m))

/-- All (member path, group key) pairs of a group list. -/
def groupPairs (groups : List SeriesGroup) : List (String × String) :=
  groups.flatMap (fun g => g.files.map (fun p => (p, g.key)))

theorem addFile_keys_nodup {groups : List SeriesGroup} {p : String} {m : Metadata}
    (h : (groups.map SeriesGroup.key).Nodup) :
    ((addFile groups p m).map SeriesGroup.key).Nodup := by
  unfold addFile
  split
  · have heq : (groups.map
        (fun g => if g.key == seriesKey m then { g with files := g.files ++ [p] } else g)).map
          SeriesGroup.key = groups.map SeriesGroup.key := by
      rw [List.map_map]
      apply List.map_congr_left
      intro g _
      simp only [Function.comp]
      split <;> rfl
    rw [heq]
    exact h
  · rename_i hany
    have ht : seriesKey m ∉ groups.map SeriesGroup.key := by
      intro hmem
      rcases List.mem_map.mp hmem with ⟨g, hg, hkey⟩
      exact hany (List.any_eq_true.mpr ⟨g, hg, by simp [hkey]⟩)
    simp only [List.map_append, List.map_cons, List.map_nil]
    exact List.Nodup.append h (List.nodup_singleton _) (by
      intro a ha hb
      simp only [List.mem_singleton] at hb
      exact ht (hb ▸ ha))

theorem addFile_files_ne_nil {groups : List SeriesGroup} {p : String} {m : Metadata}
    (h : ∀ g ∈ groups, g.files ≠ []) : ∀ g ∈ addFile groups p m, g.files ≠ [] := by
  unfold addFile
  split
  · intro g hg
    rcases List.mem_map.mp hg with ⟨g0, hg0, hfg⟩
    by_cases h0 : g0.key == seriesKey m
    · simp only [h0, if_true] at hfg
      rw [← hfg]
      simp
    · simp only [h0, Bool.false_eq_true, if_false] at hfg
      exact hfg ▸ h g0 hg0
  · intro g hg
    rcases List.mem_append.mp hg with h1 | h1
    · exact h g h1
    · simp only [List.mem_singleton] at h1
      simp [h1]

theorem updPairs_perm {p : String} {k : String} :
    ∀ groups : List SeriesGroup, (groups.map SeriesGroup.key).Nodup →
      groups.any (fun g => g.key == k) = true →
      List.Perm
        (groupPairs (groups.map
          (fun g => if g.key == k then { g with files := g.files ++ [p] } else g)))
        (groupPairs groups ++ [(p, k)]) := by
  intro groups
  induction groups with
  | nil => intro _ hany; simp at hany
  | cons g gs ih =>
    intro hnd hany
    simp only [List.map_cons, List.nodup_cons] at hnd
    by_cases hg : g.key == k
    · have hk : g.key = k := by simpa using hg
      have hgs : gs.map (fun x => if x.key == k then { x with files := x.files ++ [p] } else x)
          = gs := by
        apply map_id_of_mem
        intro x hx
        have hx1 : x.key ≠ k := by
          intro hxe
          apply hnd.1
          have hmem : x.key ∈ gs.map SeriesGroup.key := List.mem_map_of_mem SeriesGroup.key hx
          rwa [hxe, ← hk] at hmem
        simp [hx1]
      simp only [List.map_cons, hg, if_true, hgs]
      simp only [groupPairs, List.flatMap_cons, List.map_append, List.map_cons, List.map_nil]
      rw [List.append_assoc, List.append_assoc]
      refine List.Perm.append_left _ ?_
      rw [hk]
      exact List.perm_append_comm
    · have hany' : gs.any (fun x => x.key == k) = true := by
        rcases List.any_eq_true.mp hany with ⟨x, hx, hxt⟩
        rcases List.mem_cons.mp hx with hx1 | hx1
        · exact absurd (hx1 ▸ hxt) (by simpa using hg)
        · exact List.any_eq_true.mpr ⟨x, hx1, hxt⟩
      simp only [List.map_cons, hg, Bool.false_eq_true, if_false]
      simp only [groupPairs, List.flatMap_cons] at ih ⊢
      rw [List.append_assoc]
      exact List.Perm.append_left _ (ih hnd.2 hany')

theorem addFile_pairs {groups : List SeriesGroup} {p : String} {m : Metadata}
    (h : (groups.map SeriesGroup.key).Nodup) :
    List.Perm (groupPairs (addFile groups p m)) (groupPairs groups ++ [(p, seriesKey m)]) := by
  unfold addFile
  split
  · rename_i hany
    exact updPairs_perm groups h hany
  · simp only [groupPairs, List.flatMap_append, List.flatMap_cons, List.flatMap_nil,
      List.map_cons, List.map_nil, List.append_nil]
    exact List.Perm.refl _

theorem buildGroups_spec :
    ∀ (l : List (String × Option Metadata)) (acc : List SeriesGroup),
      (acc.map SeriesGroup.key).Nodup → (∀ g ∈ acc, g.files ≠ []) →
      ((buildGroups acc l).map SeriesGroup.key).Nodup ∧
      (∀ g ∈ buildGroups acc l, g.files ≠ []) ∧
      List.Perm (groupPairs (buildGroups acc l))
        (groupPairs acc ++ (l.filterMap extractEntry).map (fun pm => (pm.1, seriesKey pm.2))) := by
  intro l
  induction l with
  | nil =>
    intro acc h1 h2
    exact ⟨h1, h2, by simp [buildGroups]⟩
  | cons pr rest ih =>
    intro acc h1 h2
    rcases pr with ⟨p, om⟩
    match om with
    | none =>
      have hred : buildGroups acc ((p, none) :: rest) = buildGroups acc rest := rfl
      have hfm : ((p, (none : Option Metadata)) :: rest).filterMap extractEntry
          = rest.filterMap extractEntry := by
        simp [extractEntry]
      rw [hred, hfm]
      exact ih acc h1 h2
    | some m =>
      have hstep := ih (addFile acc p m) (addFile_keys_nodup h1) (addFile_files_ne_nil h2)
      refine ⟨hstep.1, hstep.2.1, ?_⟩
      have hadd : List.Perm (groupPairs (addFile acc p m) ++
            (rest.filterMap extractEntry).map (fun pm => (pm.1, seriesKey pm.2)))
          ((groupPairs acc ++ [(p, seriesKey m)]) ++
            (rest.filterMap extractEntry).map (fun pm => (pm.1, seriesKey pm.2))) :=
        List.Perm.append_right _ (addFile_pairs h1)
      have hshape : (groupPairs acc ++ [(p, seriesKey m)]) ++
            (rest.filterMap extractEntry).map (fun pm => (pm.1, seriesKey pm.2))
          = groupPairs acc ++ (((p, some m) :: rest).filterMap extractEntry).map
              (fun pm => (pm.1, seriesKey pm.2)) := by
        simp [extractEntry, List.append_assoc]
      have hred : buildGroups acc ((p, some m) :: rest) = buildGroups (addFile acc p m) rest :=
        rfl
      rw [hred, ← hshape]
      exact hstep.2.2.trans hadd

theorem groupPairs_map_fst :
    ∀ G : List SeriesGroup, (groupPairs G).map Prod.fst = G.flatMap SeriesGroup.files := by
  intro G
  induction G with
  | nil => rfl
  | cons g gs ih =>
    simp only [groupPairs, List.flatMap_cons, List.map_append, List.map_map] at ih ⊢
    rw [ih]
    congr 1
    have hc : (Prod.fst ∘ fun p : String => (p, g.key)) = (id : String → String) := rfl
    rw [hc, List.map_id]

theorem extract_paths_sublist :
    ∀ l : List (String × Option Metadata),
      List.Sublist ((l.filterMap extractEntry).map Prod.fst) (l.map Prod.fst) := by
  intro l
  induction l with
  | nil => simp
  | cons pr rest ih =>
    rcases pr with ⟨p, om⟩
    match om with
    | none =>
      simpa [extractEntry] using List.Sublist.cons p ih
    | some m =>
      simpa [extractEntry] using List.Sublist.cons₂ p ih

theorem take_min_500 {α : Type} (l : List α) : l.take (min 500 l.length) = l.take 500 := by
  rcases le_total 500 l.length with h | h
  · rw [min_eq_left h]
  · rw [min_eq_right h, List.take_length, List.take_of_length_le h]

/-- C7.  After grouping: no group is empty; the concatenation of all
groups' file lists is a permutation of the successfully extracted
paths among the first 500 discovered files; every such file belongs
to exactly one group, namely the one keyed by its zero-padded series
number and first 50 description characters; and grouping depends only
on the first 500 discovered files. -/
theorem grouping_invariants (dcm_files : List (String × Option Metadata))
    (hnd : (dcm_files.map Prod.fst).Nodup) :
    (∀ g ∈ find_dicom_series dcm_files, g.files ≠ []) ∧
    List.Perm ((find_dicom_series dcm_files).flatMap SeriesGroup.files)
      (((dcm_files.take 500).filterMap extractEntry).map Prod.fst) ∧
    (∀ (p : String) (m : Metadata), (p, some m) ∈ dcm_files.take 500 →
      ∃ g, g ∈ find_dicom_series dcm_files ∧ p ∈ g.files ∧ g.key = seriesKey m ∧
        ∀ g' ∈ find_dicom_series dcm_files, p ∈ g'.files → g' = g) ∧
    find_dicom_series dcm_files = find_dicom_series (dcm_files.take 500) := by
  have hspec := buildGroups_spec (dcm_files.take (min 500 dcm_files.length)) []
    List.nodup_nil (by simp)
  rw [take_min_500] at hspec
  have hG : find_dicom_series dcm_files = buildGroups [] (dcm_files.take 500) := by
    rw [find_dicom_series, take_min_500]
  have hpairs : List.Perm (groupPairs (find_dicom_series dcm_files))
      (((dcm_files.take 500).filterMap extractEntry).map (fun pm => (pm.1, seriesKey pm.2))) := by
    rw [hG]
    simpa [groupPairs] using hspec.2.2
  have hfiles : List.Perm ((find_dicom_series dcm_files).flatMap SeriesGroup.files)
      (((dcm_files.take 500).filterMap extractEntry).map Prod.fst) := by
    have := hpairs.map Prod.fst
    rw [groupPairs_map_fst] at this
    rw [List.map_map] at this
    have hcomp : (((dcm_files.take 500).filterMap extractEntry).map
        (Prod.fst ∘ fun pm => (pm.1, seriesKey pm.2)))
        = ((dcm_files.take 500).filterMap extractEntry).map Prod.fst := by
      apply List.map_congr_left
      intro pm _
      rfl
    rwa [hcomp] at this
  have hpathsnd : (((dcm_files.take 500).filterMap extractEntry).map Prod.fst).Nodup := by
    have h1 : List.Sublist (((dcm_files.take 500).filterMap extractEntry).map Prod.fst)
        ((dcm_files.take 500).map Prod.fst) := extract_paths_sublist _
    have h2 : List.Sublist ((dcm_files.take 500).map Prod.fst) (dcm_files.map Prod.fst) :=
      (List.take_sublist 500 dcm_files).map Prod.fst
    exact (h1.trans h2).nodup hnd
  have hjoin_nd : ((find_dicom_series dcm_files).flatMap SeriesGroup.files).Nodup :=
    hfiles.nodup_iff.mpr hpathsnd
  refine ⟨?_, hfiles, ?_, ?_⟩
  · rw [hG]
    exact hspec.2.1
  · intro p m hpm
    have hstep : (p, m) ∈ (dcm_files.take 500).filterMap extractEntry :=
      List.mem_filterMap.mpr ⟨(p, some m), hpm, rfl⟩
    have hmem0 := List.mem_map_of_mem (fun pm : String × Metadata => (pm.1, seriesKey pm.2)) hstep
    have hmem : (p, seriesKey m) ∈ groupPairs (find_dicom_series dcm_files) :=
      hpairs.symm.subset hmem0
    rcases List.mem_flatMap.mp hmem with ⟨g, hgG, hpg⟩
    rcases List.mem_map.mp hpg with ⟨q, hq, hqe⟩
    have hqp : q = p := congrArg Prod.fst hqe
    have hkey : g.key = seriesKey m := congrArg Prod.snd hqe
    subst hqp
    refine ⟨g, hgG, hq, hkey, ?_⟩
    intro g' hg'G hpg'
    by_contra hne
    have hpair : List.Pairwise (List.Disjoint on SeriesGroup.files) (find_dicom_series dcm_files) :=
      (List.nodup_flatMap.mp hjoin_nd).2
    have hdisj : (List.Disjoint on SeriesGroup.files) g' g :=
      hpair.forall (fun a b hab => List.Disjoint.symm hab) hg'G hgG hne
    exact hdisj hpg' hq
  · rw [find_dicom_series, find_dicom_series, take_min_500, take_min_500, List.take_take]
    simp

/-- A small discovered-file sequence: three extractable files in two
series and one unreadable file. -/
def demoFiles : List (String × Option Metadata) :=
  [("a.dcm", some mdT2Flair), ("b.dcm", none), ("c.dcm", some mdT2Flair),
    ("d.dcm", some mdT1Post)]

/-- Witness for C7: on the demo file set with distinct paths, the
file `a.dcm` lands in exactly one group, keyed by its metadata's
series key. -/
theorem grouping_invariants_witness :
    (demoFiles.map Prod.fst).Nodup ∧
    ("a.dcm", some mdT2Flair) ∈ demoFiles.take 500 ∧
    (∃ g, g ∈ find_dicom_series demoFiles ∧ "a.dcm" ∈ g.files ∧ g.key = seriesKey mdT2Flair ∧
      ∀ g' ∈ find_dicom_series demoFiles, "a.dcm" ∈ g'.files → g' = g) :=
  ⟨by decide, by decide,
    (grouping_invariants demoFiles (by decide)).2.2.1 "a.dcm" mdT2Flair (by decide)⟩

/-- The character class of `re.sub(r'[<>:"/\\|?*:\-><]', '_', ...)`
(duplicates collapsed): characters illegal in Windows filenames. -/
def invalidChar (c : Char) : Bool :=
  c == '<' || c == '>' || c == ':' || c == '"' || c == '/' || c == '\\' ||
  c == '|' || c == '?' || c == '*' || c == '-'

/-- Python's `str.isprintable`, exact on ASCII and Latin-1 (printable
means not a control character and not a non-ASCII space, line, or
format separator; U+0020 itself is printable); the rare higher
`Cf`/`Zs`/`Zl`/`Zp` codepoints are covered for the common blocks. -/
def pyIsPrintable (c : Char) : Bool :=
  let n := c.toNat
  decide (0x20 ≤ n) && n != 0x7F &&
  !(decide (0x80 ≤ n) && decide (n ≤ 0xA0)) && n != 0xAD &&
  !(decide (0x2000 ≤ n) && decide (n ≤ 0x200F)) &&
  !(decide (0x2028 ≤ n) && decide (n ≤ 0x202E)) &&
  n != 0x205F && !(decide (0x2060 ≤ n) && decide (n ≤ 0x2064)) &&
  n != 0x3000 && n != 0xFEFF

/-- The whitespace class of Python's regex `\s` (ASCII whitespace,
the C0 separators, NEL, and the common Unicode space characters). -/
def pyIsSpace (c : Char) : Bool :=
  let n := c.toNat
  c == ' ' || c == '\t' || c == '\n' || c == '\r' || n == 0x0B || n == 0x0C ||
  n == 0x1C || n == 0x1D || n == 0x1E || n == 0x1F || n == 0x85 || n == 0xA0 ||
  (decide (0x2000 ≤ n) && decide (n ≤ 0x200A)) || n == 0x2028 || n == 0x2029 ||
  n == 0x202F || n == 0x205F || n == 0x3000

/-- Replace every maximal run of characters satisfying `p` by the
single character `r`, tracking whether the previous character was in
a run: `re.sub(p+, r, ...)`. -/
def collapseRunsGo (p : Char → Bool) (r : Char) : Bool → List Char → List Char
  | _, [] => []
  | inRun, c :: cs =>
    if p c then
      if inRun then collapseRunsGo p r true cs
      else r :: collapseRunsGo p r true cs
    else c :: collapseRunsGo p r false cs

/-- `re.sub` of one-or-more repetitions of the class `p` by `r`. -/
def collapseRuns (p : Char → Bool) (r : Char) (s : List Char) : List Char :=
  collapseRunsGo p r false s

/-- The index of the last `'.'` of a filename, if any. -/
def rfindDot (s : List Char) : Option ℕ :=
  match s.reverse.findIdx? (fun c => c == '.') with
  | none => none
  | some k => some (s.length - 1 - k)

/-- `os.path.splitext` on a separator-free filename: split before the
last dot, unless every character preceding that dot is itself a dot
(then there is no extension). -/
def splitext (s : List Char) : List Char × List Char :=
  match rfindDot s with
  | none => (s, [])
  | some i =>
    if (s.take i).all (fun c => c == '.') then (s, []) else (s.take i, s.drop i)

/-- The character set of `str.strip('._ ')`. -/
def stripSet (c : Char) : Bool := c == '.' || c == '_' || c == ' '

/-- Python's `str.strip('._ ')` on a character list. -/
def stripChars (s : List Char) : List Char :=
  ((s.dropWhile stripSet).reverse.dropWhile stripSet).reverse

/-- The replacement/filter/collapse phase of `safe_filename`: illegal
characters become `_`, non-printable characters are dropped, then
whitespace runs and underscore runs each collapse to one `_`. -/
def sanitizePipeline (filename : String) : List Char :=
  collapseRuns (fun c => c == '_') '_'
    (collapseRuns pyIsSpace '_'
      ((filename.data.map (fun c => if invalidChar c then '_' else c)).filter pyIsPrintable))

/-- The truncation phase of `safe_filename`: over-long names keep
their extension when it is shorter than `max_length - 10` and give up
the tail otherwise. -/
def truncatePipeline (max_length : ℕ) (s : List Char) : List Char :=
  if max_length < s.length then
    if ((splitext s).2.length : ℤ) < (max_length : ℤ) - 10 then
      (splitext s).1.take (max_length - (splitext s).2.length) ++ (splitext s).2
    else s.take max_length
  else s

/-- `safe_filename(filename, max_length)`: sanitize, truncate, and if
the result strips to nothing substitute the timestamp-derived name
`f"series_{datetime.now().strftime(...)}"` (the strftime output is
the parameter `ts`); the returned value is stripped of `'._ '` at
both ends. -/
def safe_filename (ts : String) (max_length : ℕ) (filename : String) : String :=
  if stripChars (truncatePipeline max_length (sanitizePipeline filename)) = [] then
    String.mk (stripChars (("series_" ++ ts).data))
  else
    String.mk (stripChars (truncatePipeline max_length (sanitizePipeline filename)))

theorem collapseRunsGo_length_le (p : Char → Bool) (r : Char) :
    ∀ (l : List Char) (b : Bool), (collapseRunsGo p r b l).length ≤ l.length := by
  intro l
  induction l with
  | nil => intro b; simp [collapseRunsGo]
  | cons c cs ih =>
    intro b
    simp only [collapseRunsGo]
    split
    · split
      · exact Nat.le_succ_of_le (ih true)
      · simpa using Nat.succ_le_succ (ih true)
    · simpa using Nat.succ_le_succ (ih false)

theorem stripChars_length_le (l : List Char) : (stripChars l).length ≤ l.length := by
  unfold stripChars
  rw [List.length_reverse]
  calc ((l.dropWhile stripSet).reverse.dropWhile stripSet).length
      ≤ (l.dropWhile stripSet).reverse.length := (List.dropWhile_sublist stripSet).length_le
    _ = (l.dropWhile stripSet).length := List.length_reverse _
    _ ≤ l.length := (List.dropWhile_sublist stripSet).length_le

theorem stripChars_cons_ne_nil {c : Char} {l : List Char} (h : stripSet c = false) :
    stripChars (c :: l) ≠ [] := by
  unfold stripChars
  intro habs
  rw [List.reverse_eq_nil_iff] at habs
  have hall := List.dropWhile_eq_nil_iff.mp habs
  have hd : (c :: l).dropWhile stripSet = c :: l := by
    rw [List.dropWhile_cons]
    simp [h]
  have hc : c ∈ ((c :: l).dropWhile stripSet).reverse := by
    rw [hd, List.mem_reverse]
    simp
  have := hall c hc
  rw [h] at this
  exact Bool.false_ne_true this

theorem truncatePipeline_length_le (s : List Char) : (truncatePipeline 200 s).length ≤ 200 := by
  unfold truncatePipeline
  split
  · split
    · rename_i hext
      rw [List.length_append, List.length_take]
      have h1 : min (200 - (splitext s).2.length) (splitext s).1.length
          ≤ 200 - (splitext s).2.length := min_le_left _ _
      have h2 : (splitext s).2.length < 190 := by omega
      omega
    · rw [List.length_take]
      have h1 : min 200 s.length ≤ 200 := min_le_left _ _
      omega
  · rename_i hlen
    omega

/-- Counterexample to C8.  The claim (following the spec) says
illegal filename characters are stripped; the code replaces each with
an underscore instead (then collapses underscore runs), so `"ab<cd"`
sanitizes to `"ab_cd"`, not `"abcd"`. -/
theorem safe_filename_underscore_counterexample :
    safe_filename "20251012_120000" 200 "ab<cd" = "ab_cd" ∧ "ab_cd" ≠ "abcd" := by decide

/-- The spec's truncation scenario: a 300-character description
carrying a `.nii` extension. -/
def longDesc : String := String.mk (List.replicate 296 'a') ++ ".nii"

/-- C8 as amended: for any input the sanitizer returns a non-empty
string of length at most 200, where illegal characters are replaced
with underscores (not removed), whitespace and underscore runs
collapse, over-long names truncate to the maximum length preserving
the extension, and a name that sanitizes to nothing is replaced by
the timestamp-derived `series_...` name.  The hypothesis bounds the
strftime output, which is 15 characters in reality.  The 300-character
`.nii` scenario truncates to exactly 200 with its extension intact. -/
theorem safe_filename_amended :
    (∀ ts filename : String, ts.length ≤ 190 →
      safe_filename ts 200 filename ≠ "" ∧ (safe_filename ts 200 filename).length ≤ 200) ∧
    (safe_filename "20251012_120000" 200 longDesc).length = 200 ∧
    (safe_filename "20251012_120000" 200 longDesc).data.drop 196 = ".nii".data := by
  refine ⟨?_, by decide, by decide⟩
  intro ts filename hts
  unfold safe_filename
  split
  · rename_i hempty
    have hX : ("series_" ++ ts).data = 's' :: ("eries_".data ++ ts.data) := by
      rw [String.data_append]
      show ('s' :: "eries_".data) ++ ts.data = 's' :: ("eries_".data ++ ts.data)
      rw [List.cons_append]
    have hne : stripChars (("series_" ++ ts).data) ≠ [] := by
      rw [hX]
      exact stripChars_cons_ne_nil (by decide)
    constructor
    · intro habs
      apply hne
      have := congrArg String.data habs
      simpa using this
    · show (stripChars (("series_" ++ ts).data)).length ≤ 200
      calc (stripChars (("series_" ++ ts).data)).length
          ≤ ("series_" ++ ts).data.length := stripChars_length_le _
        _ = 7 + ts.length := by
            rw [String.data_append, List.length_append]
            rfl
        _ ≤ 200 := by omega
  · rename_i hnonempty
    constructor
    · intro habs
      apply hnonempty
      have := congrArg String.data habs
      simpa using this
    · show (stripChars (truncatePipeline 200 (sanitizePipeline filename))).length ≤ 200
      calc (stripChars (truncatePipeline 200 (sanitizePipeline filename))).length
          ≤ (truncatePipeline 200 (sanitizePipeline filename)).length := stripChars_length_le _
        _ ≤ 200 := truncatePipeline_length_le _

/-- Witness for C8's amended theorem: the empty input (which
sanitizes to nothing) yields the non-empty timestamp-derived name,
within the length bound. -/
theorem safe_filename_amended_witness :
    ("20251012_120000" : String).length ≤ 190 ∧
    safe_filename "20251012_120000" 200 "" ≠ "" ∧
    (safe_filename "20251012_120000" 200 "").length ≤ 200 ∧
    safe_filename "20251012_120000" 200 "" = "series_20251012_120000" :=
  ⟨by decide,
   (safe_filename_amended.1 "20251012_120000" "" (by decide)).1,
   (safe_filename_amended.1 "20251012_120000" "" (by decide)).2,
   by decide⟩

end Nii
